import Mathlib

/-!
# Verification of the YouTube transcript fetcher (`fetch_transcripts.py`)

This file gives a shallow embedding of the text-processing core of
`fetch_transcripts.py` and proves the specified properties about it.

Conventions of the embedding:

* Python strings are modelled as `String` / `List Char`; all functions are
  structural (fuel-indexed where the original regex scan jumps), so the
  kernel can evaluate them on concrete inputs.
* Python's `re` character classes are modelled over ASCII: `\w` becomes
  ASCII alphanumeric or `_`, `\s` becomes the ASCII whitespace characters
  `' '`, `\t`, `\n`, `\r`, `\x0b`, `\x0c`.  All inputs appearing in the
  spec's scenarios are ASCII, so this is faithful on the relevant domain.
* Effectful steps of the pipeline (metadata fetch, subtitle download, file
  existence, VTT parsing) are modelled by an environment record describing
  the outcome of each external interaction, and the pipeline additionally
  returns the list of external events it performed, in order.
-/

/-- ASCII approximation of Python's whitespace class (`\s`, `str.strip`). -/
def isPySpace (c : Char) : Bool :=
  c = ' ' || c = '\t' || c = '\n' || c = '\r' || c = '\x0b' || c = '\x0c'

/-- `List.dropWhile` from the right end: drops the longest suffix all of
whose characters satisfy `p`.  Used to model the right half of Python's
`str.strip()`. -/
def dropEndWhile (p : Char → Bool) : List Char → List Char
  | [] => []
  | c :: rest =>
    match dropEndWhile p rest with
    | [] => if p c then [] else [c]
    | r => c :: r

/-- Python `str.strip()` on a character list (ASCII whitespace). -/
def trimChars (cs : List Char) : List Char :=
  dropEndWhile isPySpace (cs.dropWhile isPySpace)

/-- Splits a character list at the first `'>'`: returns the characters
strictly before it and the characters strictly after it, or `none` when no
`'>'` occurs.  This is the search performed by the regex `<[^>]+>` once a
`'<'` has been read: the `[^>]+` part can only stop at the first `'>'`. -/
def findGt : List Char → Option (List Char × List Char)
  | [] => none
  | c :: rest =>
    if c = '>' then some ([], rest)
    else
      match findGt rest with
      | some p => some (c :: p.1, p.2)
      | none => none

/-- One fuel-indexed step of `re.sub(r'<[^>]+>', '', s)`: scan left to
right; at a `'<'`, if the first following `'>'` has at least one character
in between, the whole span (a match of `<[^>]+>`) is deleted and scanning
resumes after it; otherwise (no `'>'` later, or an immediately following
`'>'`, i.e. `<>`), there is no match at this position and the `'<'` is kept.
Fuel bounds the recursion; `stripTags` supplies `length` fuel, which always
suffices. -/
def stripTagsFuel : Nat → List Char → List Char
  | 0, cs => cs
  | _ + 1, [] => []
  | fuel + 1, c :: rest =>
    if c = '<' then
      match findGt rest with
      | some (gap, after) =>
        if gap = [] then c :: stripTagsFuel fuel rest
        else stripTagsFuel fuel after
      | none => c :: stripTagsFuel fuel rest
    else c :: stripTagsFuel fuel rest

/-- `re.sub(r'<[^>]+>', '', ·)` on a character list. -/
def stripTags (cs : List Char) : List Char :=
  stripTagsFuel cs.length cs

/-- `re.sub(r'<[^>]+>', '', caption.text).strip()` — the cleaning applied
to each caption cue's text (`fetch_transcripts.py`, line 239). -/
def cleanCaption (s : String) : String :=
  ⟨trimChars (stripTags s.data)⟩

/-- The cue loop of `convert_subtitles_to_text` (lines 234–242): starting
at index `i`, keep a cue's cleaned text whenever it is non-empty and the
index is even. -/
def collectLines (i : Nat) : List String → List String
  | [] => []
  | t :: rest =>
    let c := cleanCaption t
    if c ≠ "" ∧ i % 2 = 0 then c :: collectLines (i + 1) rest
    else collectLines (i + 1) rest

/-- `convert_subtitles_to_text` (lines 218–243).  The `webvtt.read` call is
modelled by the input: `none` means the read raised (malformed file), and
`some texts` gives the cue texts of the parsed captions in file order. -/
def convert_subtitles_to_text (parsed : Option (List String)) : String :=
  match parsed with
  | none => ""
  | some texts => String.intercalate "\n" (collectLines 0 texts)

/-- Whether a `'>'` occurs in the list. -/
def hasGt : List Char → Bool
  | [] => false
  | c :: rest => c = '>' || hasGt rest

/-- The strip-normal-form invariant: every `'<'` is either immediately
followed by `'>'` (so `[^>]+` cannot match) or has no `'>'` anywhere after
it.  On such lists `<[^>]+>` has no match, so stripping is the identity;
and stripping always produces such a list. -/
def tagFree : List Char → Bool
  | [] => true
  | c :: rest =>
    if c = '<' then
      match rest with
      | [] => true
      | d :: _ => if d = '>' then tagFree rest else !hasGt rest
    else tagFree rest

/-- Splitting a character list at each `'\n'` — the "lines" of a string.
(Models what `"\n"`-splitting does to the normalizer's output.) -/
def splitNl : List Char → List (List Char)
  | [] => [[]]
  | c :: rest =>
    match splitNl rest with
    | [] => [[c]]
    | h :: t => if c = '\n' then [] :: h :: t else (c :: h) :: t

/-- The lines of a string, as strings. -/
def linesOf (s : String) : List String :=
  (splitNl s.data).map fun cs => ⟨cs⟩

/-! ## URL validation (`is_valid_youtube_url`, lines 89–104)

The Python code matches the input against
`^(https?://)?(www\.)?(youtube\.com/watch\?v=|youtu\.be/)[\w-]{11}(&\S*)?$`
with `re.match`.  Notes on the translation:

* `\w` is modelled as ASCII alphanumeric or `'_'`.
* In Python, `$` matches at the end of the string, and also just before a
  newline that ends the string; since no element of this pattern can consume
  a `'\n'` (`\w`, the literals and `\S` all exclude it), the pattern matches
  a string ending in `'\n'` iff it matches the string with that final
  newline removed.  `dropFinalNl` implements exactly that.
* Each optional group is committed: a string starting with
  `http://`/`https://`/`www.` can never match with that group skipped
  (the following literals all begin with a different character), so the
  linear parser below is equivalent to the backtracking regex engine. -/

/-- ASCII model of the regex class `[\w-]`. -/
def isWordOrDash (c : Char) : Bool :=
  c.isAlphanum || c = '_' || c = '-'

/-- If `lit` is an initial run of `cs`, return the rest of `cs`; else `none`. -/
def dropLit : List Char → List Char → Option (List Char)
  | [], cs => some cs
  | _ :: _, [] => none
  | a :: lit, c :: cs => if c = a then dropLit lit cs else none

/-- Removes a single final `'\n'` when present (Python's `$` tolerance). -/
def dropFinalNl (cs : List Char) : List Char :=
  if cs.getLast? = some '\n' then cs.dropLast else cs

/-- The optional-scheme group `(https?://)?`: committed, since a string
starting with a scheme can never match with the group skipped (the
following literals start with `w` or `y`, never `h`). -/
def afterScheme (cs : List Char) : List Char :=
  match dropLit "https://".data cs with
  | some r => r
  | none =>
    match dropLit "http://".data cs with
    | some r => r
    | none => cs

/-- The optional group `(www\.)?`, likewise committed. -/
def afterWww (cs : List Char) : List Char :=
  match dropLit "www.".data cs with
  | some r => r
  | none => cs

/-- The host alternation `(youtube\.com/watch\?v=|youtu\.be/)`: the two
literals diverge at their sixth character, so the alternation is
deterministic. -/
def hostRest (cs : List Char) : Option (List Char) :=
  match dropLit "youtube.com/watch?v=".data cs with
  | some r => some r
  | none => dropLit "youtu.be/".data cs

/-- The tail group `(&\S*)?$` on what follows the video identifier: either
nothing, or `&` followed by non-whitespace characters only (the greedy
`\S*` must reach the anchor). -/
def ampSuffixOk : List Char → Bool
  | [] => true
  | c :: t => c = '&' && t.all fun x => !isPySpace x

/-- `[\w-]{11}(&\S*)?$` on what follows the host literal. -/
def idSuffixOk (rest : List Char) : Bool :=
  decide ((rest.take 11).length = 11) && (rest.take 11).all isWordOrDash &&
    ampSuffixOk (rest.drop 11)

/-- The body of the YouTube-URL regex, after the `$`-newline tolerance has
been applied: optional scheme, optional `www.`, one of the two host
literals, exactly 11 `[\w-]` characters, then the optional `&` suffix. -/
def urlCore (cs : List Char) : Bool :=
  match hostRest (afterWww (afterScheme cs)) with
  | none => false
  | some rest => idSuffixOk rest

/-- The scheme alternatives of the pattern, as written in claim C10. -/
def schemeOpts : List (List Char) := [[], "http://".data, "https://".data]

/-- The `www.` alternatives of the pattern. -/
def wwwOpts : List (List Char) := [[], "www.".data]

/-- The host alternatives of the pattern. -/
def hostOpts : List (List Char) := ["youtube.com/watch?v=".data, "youtu.be/".data]

/-- The accepted-string shape exactly as claim C10 words it: an optional
http/https scheme, optional `www.`, one of the two host forms, an
identifier of exactly 11 word-or-dash characters, and an optional suffix
beginning with `&`. -/
def ClaimUrlShape (cs : List Char) : Prop :=
  ∃ scheme www host ident suf : List Char,
    scheme ∈ schemeOpts ∧ www ∈ wwwOpts ∧ host ∈ hostOpts ∧
    cs = scheme ++ www ++ host ++ ident ++ suf ∧
    ident.length = 11 ∧ (∀ c ∈ ident, isWordOrDash c = true) ∧
    (suf = [] ∨ ∃ t, suf = '&' :: t)

/-- The claim's shape amended by what the code actually enforces on the
suffix: after `&` only non-whitespace characters may follow. -/
def AmendedCoreShape (cs : List Char) : Prop :=
  ∃ scheme www host ident suf : List Char,
    scheme ∈ schemeOpts ∧ www ∈ wwwOpts ∧ host ∈ hostOpts ∧
    cs = scheme ++ www ++ host ++ ident ++ suf ∧
    ident.length = 11 ∧ (∀ c ∈ ident, isWordOrDash c = true) ∧
    (suf = [] ∨ ∃ t, suf = '&' :: t ∧ ∀ c ∈ t, isPySpace c = false)

/-- The full amended shape: a core-shaped string, optionally followed by a
single trailing newline (which Python's `$` anchor tolerates). -/
def AmendedUrlShape (cs : List Char) : Prop :=
  AmendedCoreShape cs ∨ ∃ core, cs = core ++ ['\n'] ∧ AmendedCoreShape core

/-- `is_valid_youtube_url` (lines 89–104). -/
def is_valid_youtube_url (url : String) : Bool :=
  urlCore (dropFinalNl url.data)

/-! ## Title derivation and sanitization -/

/-- The filesystem-safe title derivation inlined in `fetch_transcript`
(lines 143–146): `info.get('title').strip().replace(' ', '-')`, then
`re.sub(r'[^a-zA-Z0-9\-]', '', ·)`, then truncation to 50 characters. -/
def deriveTitleChars (cs : List Char) : List Char :=
  ((((trimChars cs).map fun c => if c = ' ' then '-' else c).filter
    fun c => c.isAlphanum || c = '-').take 50)

/-- String form of the title derivation of `fetch_transcript`. -/
def derive_video_title (title : String) : String :=
  ⟨deriveTitleChars title.data⟩

/-- `sanitize_filename` (lines 106–120): spaces to dashes, then removal of
the characters `\/*?:"<>|` that are invalid in filenames. -/
def sanitize_filename (title : String) : String :=
  ⟨(title.data.map fun c => if c = ' ' then '-' else c).filter
    fun c => !(c ∈ ['\\', '/', '*', '?', ':', '"', '<', '>', '|'])⟩

/-- Collapse each maximal run of whitespace characters into a single
`'-'`: the "collapse whitespace to a single separator character" operation
that claim C6 describes (the claim's reading, not the code's). -/
def collapseRuns : List Char → List Char
  | [] => []
  | [c] => if isPySpace c then ['-'] else [c]
  | c :: d :: rest =>
    if isPySpace c && isPySpace d then collapseRuns (d :: rest)
    else (if isPySpace c then '-' else c) :: collapseRuns (d :: rest)

/-- Claim C6's description of the derived title: whitespace collapsed to a
single separator, illegal characters removed, length capped at 50. -/
def claimCollapseTitle (title : String) : String :=
  ⟨((collapseRuns (trimChars title.data)).filter fun c => c.isAlphanum || c = '-').take 50⟩

/-! ## Subtitle availability (`fetch_transcript`, lines 156–167) -/

/-- The three outcomes of the subtitle availability decision. -/
inductive SubtitleAvailability
  | UseUserProvided
  | UseAutoGenerated
  | Unavailable
deriving DecidableEq, Repr

/-- The availability decision of `fetch_transcript` (lines 156–167): the
dicts `subtitles` and `automatic_captions` are represented by their key
lists, and `language in subtitles` is key membership. -/
def resolve_availability (subtitles automaticCaptions : List String)
    (language : String) : SubtitleAvailability :=
  if language ∈ subtitles then .UseUserProvided
  else if language ∈ automaticCaptions then .UseAutoGenerated
  else .Unavailable

/-! ## The fetch pipeline (`fetch_transcript`, `process_url`)

External interactions are modelled by a `FetchEnv` describing the outcome
each one would have, and the pipeline returns the ordered list of external
events it actually performed alongside its result. -/

/-- The metadata returned by the first `extract_info` call: title and the
key sets of the `subtitles` and `automatic_captions` dicts. -/
structure VideoInfo where
  title : String
  subtitles : List String
  automaticCaptions : List String

/-- Outcomes of the external interactions of one fetch:
`metadata = none` models a raising `extract_info`; `downloadOk = false`
models a raising subtitle download; `subtitleFileExists` tells whether the
expected `.vtt` file exists afterwards; `parsedCaptions` is the
`webvtt.read` outcome on that file (`none` = parse failure). -/
structure FetchEnv where
  metadata : Option VideoInfo
  downloadOk : Bool
  subtitleFileExists : Bool
  parsedCaptions : Option (List String)

/-- External events, in the order the pipeline performs them. -/
inductive FetchEvent
  | metadataFetch
  | subtitleDownload
  | saveTranscript (title : String)
deriving DecidableEq, Repr

/-- `fetch_transcript` (lines 122–216): metadata fetch, availability
resolution, subtitle download, file-existence check, conversion to text.
Returns the `Optional[Tuple[str, str]]` result (transcript, title) and the
trace of external calls made. -/
def fetch_transcript (env : FetchEnv) (language : String) :
    Option (String × String) × List FetchEvent :=
  match env.metadata with
  | none => (none, [.metadataFetch])
  | some info =>
    let video_title := derive_video_title info.title
    match resolve_availability info.subtitles info.automaticCaptions language with
    | .Unavailable => (none, [.metadataFetch])
    | _ =>
      if !env.downloadOk then (none, [.metadataFetch, .subtitleDownload])
      else if !env.subtitleFileExists then (none, [.metadataFetch, .subtitleDownload])
      else
        (some (convert_subtitles_to_text env.parsedCaptions, video_title),
         [.metadataFetch, .subtitleDownload])

/-- `process_url` (lines 266–291): URL validation, fetch, and save.  A
Python `if transcript:` on a string is a non-emptiness test.  Returns the
video title on success (`None` otherwise) and the full event trace,
including a `saveTranscript` event when `save_transcript` is called. -/
def process_url (url : String) (env : FetchEnv) (language : String) :
    Option String × List FetchEvent :=
  if !is_valid_youtube_url url then (none, [])
  else
    match fetch_transcript env language with
    | (some (transcript, video_title), evs) =>
      if transcript ≠ "" then (some video_title, evs ++ [.saveTranscript video_title])
      else (none, evs)
    | (none, evs) => (none, evs)

/-! ## Supporting lemmas: Booleans and lists -/

theorem band_elim {a b : Bool} (h : (a && b) = true) : a = true ∧ b = true := by
  simp at h; exact h

theorem band_intro {a b : Bool} (h1 : a = true) (h2 : b = true) : (a && b) = true := by
  simp [h1, h2]

theorem mem_of_getLast?_char (l : List Char) (c : Char) (h : l.getLast? = some c) :
    c ∈ l := by
  have hmem : c ∈ l.getLast? := by rw [Option.mem_def]; exact h
  obtain ⟨h1, h2⟩ := List.mem_getLast?_eq_getLast hmem
  rw [h2]
  exact List.getLast_mem h1

/-! ## Supporting lemmas: the URL matcher -/

theorem dropLit_eq_some : ∀ (lit cs r : List Char), dropLit lit cs = some r →
    cs = lit ++ r := by
  intro lit
  induction lit with
  | nil =>
    intro cs r h
    rw [show dropLit [] cs = some cs from rfl] at h
    cases h
    simp
  | cons a lit ih =>
    intro cs r h
    cases cs with
    | nil => simp [dropLit] at h
    | cons c cs =>
      by_cases hc : c = a
      · subst hc
        simp only [dropLit, if_pos rfl] at h
        simpa using ih cs r h
      · simp [dropLit, hc] at h

theorem dropLit_append : ∀ lit r : List Char, dropLit lit (lit ++ r) = some r := by
  intro lit r
  induction lit with
  | nil => rfl
  | cons a lit ih => simp [dropLit, ih]

theorem afterScheme_decomp (cs : List Char) :
    ∃ a, a ∈ schemeOpts ∧ cs = a ++ afterScheme cs := by
  unfold afterScheme
  cases h1 : dropLit "https://".data cs with
  | some r => exact ⟨"https://".data, by simp [schemeOpts], dropLit_eq_some _ _ _ h1⟩
  | none =>
    cases h2 : dropLit "http://".data cs with
    | some r => exact ⟨"http://".data, by simp [schemeOpts], dropLit_eq_some _ _ _ h2⟩
    | none => exact ⟨[], by simp [schemeOpts], by simp⟩

theorem afterWww_decomp (cs : List Char) :
    ∃ b, b ∈ wwwOpts ∧ cs = b ++ afterWww cs := by
  unfold afterWww
  cases h1 : dropLit "www.".data cs with
  | some r => exact ⟨"www.".data, by simp [wwwOpts], dropLit_eq_some _ _ _ h1⟩
  | none => exact ⟨[], by simp [wwwOpts], by simp⟩

theorem hostRest_decomp (cs rest : List Char) (h : hostRest cs = some rest) :
    ∃ hst, hst ∈ hostOpts ∧ cs = hst ++ rest := by
  unfold hostRest at h
  cases h1 : dropLit "youtube.com/watch?v=".data cs with
  | some r =>
    rw [h1] at h
    cases h
    exact ⟨"youtube.com/watch?v=".data, by simp [hostOpts], dropLit_eq_some _ _ _ h1⟩
  | none =>
    rw [h1] at h
    exact ⟨"youtu.be/".data, by simp [hostOpts], dropLit_eq_some _ _ _ h⟩

theorem idSuffixOk_decomp (rest : List Char) (h : idSuffixOk rest = true) :
    ∃ ident suf, rest = ident ++ suf ∧ ident.length = 11 ∧
      (∀ c ∈ ident, isWordOrDash c = true) ∧
      (suf = [] ∨ ∃ t, suf = '&' :: t ∧ ∀ c ∈ t, isPySpace c = false) := by
  unfold idSuffixOk at h
  obtain ⟨h12, h3⟩ := band_elim h
  obtain ⟨h1, h2⟩ := band_elim h12
  refine ⟨rest.take 11, rest.drop 11, (List.take_append_drop 11 rest).symm,
    of_decide_eq_true h1, ?_, ?_⟩
  · intro c hc
    exact List.all_eq_true.mp h2 c hc
  · cases hm : rest.drop 11 with
    | nil => exact Or.inl rfl
    | cons c t =>
      rw [hm] at h3
      obtain ⟨hc, ht⟩ := band_elim h3
      refine Or.inr ⟨t, by rw [of_decide_eq_true hc], fun x hx => ?_⟩
      have := List.all_eq_true.mp ht x hx
      simpa using this

/-- Soundness: an accepted core string has the amended claim shape. -/
theorem amendedCore_of_urlCore (cs : List Char) (h : urlCore cs = true) :
    AmendedCoreShape cs := by
  unfold urlCore at h
  cases hh : hostRest (afterWww (afterScheme cs)) with
  | none => rw [hh] at h; simp at h
  | some rest =>
    rw [hh] at h
    obtain ⟨a, ha, hcs1⟩ := afterScheme_decomp cs
    obtain ⟨b, hb, hcs2⟩ := afterWww_decomp (afterScheme cs)
    obtain ⟨hst, hhst, hcs3⟩ := hostRest_decomp _ rest hh
    obtain ⟨ident, suf, hrest, hlen, hword, hsuf⟩ := idSuffixOk_decomp rest h
    refine ⟨a, b, hst, ident, suf, ha, hb, hhst, ?_, hlen, hword, hsuf⟩
    rw [hcs1, hcs2, hcs3, hrest]
    simp [List.append_assoc]

/-- Completeness: every amended-shape core string is accepted.  The twelve
scheme/www/host combinations each reduce the matcher definitionally to the
identifier-and-suffix check. -/
theorem urlCore_of_amendedCore (cs : List Char) (h : AmendedCoreShape cs) :
    urlCore cs = true := by
  obtain ⟨a, b, hst, ident, suf, ha, hb, hhst, hcs, hlen, hword, hsuf⟩ := h
  have htake : (ident ++ suf).take 11 = ident := by
    rw [← hlen]; exact List.take_left ident suf
  have hdrop : (ident ++ suf).drop 11 = suf := by
    rw [← hlen]; exact List.drop_left ident suf
  have hamp : ampSuffixOk suf = true := by
    rcases hsuf with rfl | ⟨t, rfl, ht⟩
    · rfl
    · simp only [ampSuffixOk]
      refine band_intro (by decide) (List.all_eq_true.mpr fun x hx => ?_)
      simp [ht x hx]
  have hid : idSuffixOk (ident ++ suf) = true := by
    unfold idSuffixOk
    rw [htake, hdrop]
    refine band_intro (band_intro (by simp [hlen]) ?_) hamp
    exact List.all_eq_true.mpr fun x hx => hword x hx
  subst hcs
  simp only [schemeOpts, wwwOpts, hostOpts, List.mem_cons, List.mem_singleton,
    List.not_mem_nil, or_false, false_or] at ha hb hhst
  rcases ha with rfl | rfl | rfl <;> rcases hb with rfl | rfl <;> rcases hhst with rfl | rfl <;>
    exact hid

/-- A core-shaped string never ends in a newline: its last character is an
identifier character, `'&'`, or a non-whitespace suffix character. -/
theorem amendedCore_getLast_ne (cs : List Char) (h : AmendedCoreShape cs) :
    cs.getLast? ≠ some '\n' := by
  obtain ⟨a, b, hst, ident, suf, _, _, _, hcs, hlen, hword, hsuf⟩ := h
  subst hcs
  rcases hsuf with rfl | ⟨t, rfl, ht⟩
  · have hne : ident ≠ [] := by
      intro h0; rw [h0] at hlen; simp at hlen
    rw [show a ++ b ++ hst ++ ident ++ ([] : List Char) = (a ++ b ++ hst) ++ ident by simp]
    rw [List.getLast?_append_of_ne_nil _ hne]
    intro hlast
    have hmem := mem_of_getLast?_char ident '\n' hlast
    exact absurd (hword '\n' hmem) (by decide)
  · rw [show a ++ b ++ hst ++ ident ++ ('&' :: t) = (a ++ b ++ hst ++ ident) ++ ('&' :: t)
      from rfl]
    rw [List.getLast?_append_cons]
    intro hlast
    have hmem := mem_of_getLast?_char _ '\n' hlast
    rcases List.mem_cons.mp hmem with h0 | h0
    · exact absurd h0 (by decide)
    · exact absurd (ht '\n' h0) (by decide)

/-- The full matcher, with the `$`-anchor's newline tolerance, accepts
exactly the amended shape. -/
theorem urlCore_dropFinalNl_iff (cs : List Char) :
    urlCore (dropFinalNl cs) = true ↔ AmendedUrlShape cs := by
  constructor
  · intro h
    by_cases hnl : cs.getLast? = some '\n'
    · right
      refine ⟨cs.dropLast, ?_, ?_⟩
      · exact (List.dropLast_append_getLast? '\n' (by rw [Option.mem_def]; exact hnl)).symm
      · rw [dropFinalNl, if_pos hnl] at h
        exact amendedCore_of_urlCore _ h
    · left
      rw [dropFinalNl, if_neg hnl] at h
      exact amendedCore_of_urlCore _ h
  · intro h
    rcases h with h | ⟨core, rfl, hcore⟩
    · rw [dropFinalNl, if_neg (amendedCore_getLast_ne _ h)]
      exact urlCore_of_amendedCore _ h
    · have hnl : (core ++ ['\n']).getLast? = some '\n' := by
        rw [List.getLast?_append_cons]; rfl
      rw [dropFinalNl, if_pos hnl, List.dropLast_concat]
      exact urlCore_of_amendedCore _ hcore

/-! ## Supporting lemmas about markup stripping -/

theorem hasGt_append : ∀ a b : List Char, hasGt (a ++ b) = (hasGt a || hasGt b) := by
  intro a b
  induction a with
  | nil => simp [hasGt]
  | cons c rest ih => simp [hasGt, ih, Bool.or_assoc]

theorem findGt_eq_none_of_no_gt : ∀ l : List Char, hasGt l = false → findGt l = none := by
  intro l h
  induction l with
  | nil => rfl
  | cons c rest ih =>
    simp only [hasGt, Bool.or_eq_false_iff, decide_eq_false_iff_not] at h
    simp [findGt, h.1, ih h.2]

theorem no_gt_of_findGt_eq_none : ∀ l : List Char, findGt l = none → hasGt l = false := by
  intro l h
  induction l with
  | nil => rfl
  | cons c rest ih =>
    by_cases hc : c = '>'
    · simp [findGt, hc] at h
    · simp only [findGt, hc, if_false] at h
      cases hfg : findGt rest with
      | some p => rw [hfg] at h; simp at h
      | none => simp [hasGt, hc, ih hfg]

theorem findGt_some_decomp : ∀ l b a : List Char, findGt l = some (b, a) →
    l = b ++ '>' :: a ∧ hasGt b = false := by
  intro l
  induction l with
  | nil => intro b a h; simp [findGt] at h
  | cons c rest ih =>
    intro b a h
    by_cases hc : c = '>'
    · simp only [findGt, hc, if_true] at h
      obtain ⟨hb, ha⟩ := Prod.mk.injEq .. ▸ Option.some.injEq .. ▸ h
      subst hc; cases h
      exact ⟨rfl, rfl⟩
    · simp only [findGt, hc, if_false] at h
      cases hfg : findGt rest with
      | none => rw [hfg] at h; simp at h
      | some p =>
        rw [hfg] at h
        simp only [Option.some.injEq] at h
        obtain ⟨b', a'⟩ := p
        obtain ⟨hd, _⟩ := ih b' a' hfg
        cases h
        refine ⟨by simpa using hd, ?_⟩
        simp [hasGt, hc, (ih b' a' hfg).2]

theorem stripTagsFuel_nil : ∀ fuel, stripTagsFuel fuel [] = [] := by
  intro fuel; cases fuel <;> rfl

theorem stripTagsFuel_no_gt : ∀ (l : List Char) (fuel : Nat), hasGt l = false →
    l.length ≤ fuel → stripTagsFuel fuel l = l := by
  intro l
  induction l with
  | nil => intro fuel _ _; exact stripTagsFuel_nil fuel
  | cons c rest ih =>
    intro fuel h hf
    cases fuel with
    | zero => simp at hf
    | succ f =>
      simp only [hasGt, Bool.or_eq_false_iff, decide_eq_false_iff_not] at h
      have hrest : stripTagsFuel f rest = rest :=
        ih f (by simp [hasGt, h.2]) (by simpa using hf)
      by_cases hc : c = '<'
      · simp [stripTagsFuel, hc, findGt_eq_none_of_no_gt rest h.2, hrest]
      · simp [stripTagsFuel, hc, hrest]

theorem tagFree_of_no_gt : ∀ l : List Char, hasGt l = false → tagFree l = true := by
  intro l h
  induction l with
  | nil => rfl
  | cons c rest ih =>
    simp only [hasGt, Bool.or_eq_false_iff, decide_eq_false_iff_not] at h
    by_cases hc : c = '<'
    · cases rest with
      | nil => simp [tagFree, hc]
      | cons d t =>
        have hd : d ≠ '>' := by
          simp only [hasGt, Bool.or_eq_false_iff, decide_eq_false_iff_not] at h
          exact h.2.1
        simp [tagFree, hc, hd, h.2]
    · simp [tagFree, hc, ih h.2]

theorem tagFree_tail : ∀ (c : Char) (l : List Char), tagFree (c :: l) = true →
    tagFree l = true := by
  intro c l h
  by_cases hc : c = '<'
  · cases l with
    | nil => rfl
    | cons d t =>
      by_cases hd : d = '>'
      · simpa [tagFree, hc, hd] using h
      · simp only [tagFree, hc, hd, if_true, if_false] at h
        exact tagFree_of_no_gt _ (by simpa using h)
  · simpa [tagFree, hc] using h

theorem tagFree_dropWhile (p : Char → Bool) : ∀ l : List Char, tagFree l = true →
    tagFree (l.dropWhile p) = true := by
  intro l h
  induction l with
  | nil => exact h
  | cons c rest ih =>
    by_cases hp : p c
    · simpa [List.dropWhile, hp] using ih (tagFree_tail c rest h)
    · simpa [List.dropWhile, hp] using h

theorem tagFree_append_left : ∀ m w : List Char, tagFree (m ++ w) = true →
    tagFree m = true := by
  intro m
  induction m with
  | nil => intro w _; rfl
  | cons c m' ih =>
    intro w h
    by_cases hc : c = '<'
    · cases hm : m' with
      | nil => simp [tagFree, hc]
      | cons d t =>
        subst hm
        by_cases hd : d = '>'
        · have h2 : tagFree ((d :: t) ++ w) = true := by
            subst hd
            simpa [tagFree, hc] using h
          have := ih w h2
          simpa [tagFree, hc, hd] using this
        · have h2 : hasGt ((d :: t) ++ w) = false := by
            simpa [tagFree, hc, hd] using h
          have h3 : hasGt (d :: t) = false := by
            rw [hasGt_append] at h2
            exact (Bool.or_eq_false_iff.mp h2).1
          simp [tagFree, hc, hd, h3]
    · exact by
        have h2 : tagFree (m' ++ w) = true := by simpa [tagFree, hc] using h
        simpa [tagFree, hc] using ih w h2

/-- Stripping is the identity on tag-free lists: no `<[^>]+>` match exists. -/
theorem stripTagsFuel_of_tagFree : ∀ (l : List Char) (fuel : Nat), tagFree l = true →
    l.length ≤ fuel → stripTagsFuel fuel l = l := by
  intro l
  induction l with
  | nil => intro fuel _ _; exact stripTagsFuel_nil fuel
  | cons c rest ih =>
    intro fuel h hf
    cases fuel with
    | zero => simp at hf
    | succ f =>
      have hfr : rest.length ≤ f := by simpa using hf
      by_cases hc : c = '<'
      · cases rest with
        | nil => simp [stripTagsFuel, hc, findGt, stripTagsFuel_nil]
        | cons d t =>
          by_cases hd : d = '>'
          · subst hd
            have h2 : tagFree ('>' :: t) = true := by simpa [tagFree, hc] using h
            simp [stripTagsFuel, hc, findGt, ih f h2 hfr]
          · have h2 : hasGt (d :: t) = false := by simpa [tagFree, hc, hd] using h
            simp [stripTagsFuel, hc, findGt_eq_none_of_no_gt _ h2,
              stripTagsFuel_no_gt _ f h2 hfr]
      · have h2 : tagFree rest = true := tagFree_tail c rest h
        simp [stripTagsFuel, hc, ih f h2 hfr]

/-- Stripping always lands in the tag-free fragment. -/
theorem tagFree_stripTagsFuel : ∀ (fuel : Nat) (l : List Char), l.length ≤ fuel →
    tagFree (stripTagsFuel fuel l) = true := by
  intro fuel
  induction fuel with
  | zero =>
    intro l hl
    have : l = [] := List.length_eq_zero.mp (Nat.le_zero.mp hl)
    subst this; rfl
  | succ f ih =>
    intro l hl
    cases l with
    | nil => rfl
    | cons c rest =>
      have hfr : rest.length ≤ f := by simpa using hl
      by_cases hc : c = '<'
      · cases hfg : findGt rest with
        | none =>
          have h2 : hasGt rest = false := no_gt_of_findGt_eq_none rest hfg
          rw [show stripTagsFuel (f + 1) (c :: rest) = c :: stripTagsFuel f rest by
            simp [stripTagsFuel, hc, hfg]]
          rw [stripTagsFuel_no_gt rest f h2 hfr]
          subst hc
          cases rest with
          | nil => rfl
          | cons d t =>
            have hd : d ≠ '>' := by
              simp only [hasGt, Bool.or_eq_false_iff, decide_eq_false_iff_not] at h2
              exact h2.1
            simp [tagFree, hd, h2]
        | some p =>
          obtain ⟨gap, after⟩ := p
          obtain ⟨hdec, -⟩ := findGt_some_decomp rest gap after hfg
          by_cases hgap : gap = []
          · subst hgap
            simp only [List.nil_append] at hdec
            subst hdec
            rw [show stripTagsFuel (f + 1) (c :: '>' :: after) =
                c :: stripTagsFuel f ('>' :: after) by simp [stripTagsFuel, hc, hfg]]
            cases f with
            | zero => simp at hfr
            | succ f2 =>
              rw [show stripTagsFuel (f2 + 1) ('>' :: after) =
                  '>' :: stripTagsFuel f2 after by simp [stripTagsFuel]]
              have h3 : tagFree ('>' :: stripTagsFuel f2 after) = true := by
                have h4 := ih ('>' :: after) hfr
                rwa [show stripTagsFuel (f2 + 1) ('>' :: after) =
                    '>' :: stripTagsFuel f2 after by simp [stripTagsFuel]] at h4
              subst hc
              simpa [tagFree] using h3
          · have hlen : after.length ≤ f := by
              have : rest.length = gap.length + 1 + after.length := by
                simp [hdec]; omega
              omega
            rw [show stripTagsFuel (f + 1) (c :: rest) = stripTagsFuel f after by
              simp [stripTagsFuel, hc, hfg, hgap]]
            exact ih after hlen
      · rw [show stripTagsFuel (f + 1) (c :: rest) = c :: stripTagsFuel f rest by
          simp [stripTagsFuel, hc]]
        have h2 := ih rest hfr
        cases hsr : stripTagsFuel f rest with
        | nil => simp [tagFree, hc]
        | cons x xs => simpa [tagFree, hc, hsr] using h2

/-- `stripTags` is the identity on tag-free lists. -/
theorem stripTags_of_tagFree (l : List Char) (h : tagFree l = true) : stripTags l = l :=
  stripTagsFuel_of_tagFree l l.length h le_rfl

/-- `stripTags` always produces a tag-free list. -/
theorem tagFree_stripTags (l : List Char) : tagFree (stripTags l) = true :=
  tagFree_stripTagsFuel l.length l le_rfl

/-! ## Supporting lemmas about trimming -/

/-- `dropEndWhile` removes a suffix of the list. -/
theorem dropEndWhile_decomp (p : Char → Bool) : ∀ l : List Char,
    ∃ w, l = dropEndWhile p l ++ w := by
  intro l
  induction l with
  | nil => exact ⟨[], rfl⟩
  | cons c rest ih =>
    obtain ⟨w, hw⟩ := ih
    cases hr : dropEndWhile p rest with
    | nil =>
      by_cases hp : p c
      · exact ⟨c :: rest, by simp [dropEndWhile, hr, hp]⟩
      · exact ⟨rest, by simp [dropEndWhile, hr, hp]⟩
    | cons x xs =>
      refine ⟨w, ?_⟩
      rw [show dropEndWhile p (c :: rest) = c :: dropEndWhile p rest by
        simp [dropEndWhile, hr]]
      simpa using hw

theorem tagFree_dropEndWhile (p : Char → Bool) (l : List Char) (h : tagFree l = true) :
    tagFree (dropEndWhile p l) = true := by
  obtain ⟨w, hw⟩ := dropEndWhile_decomp p l
  exact tagFree_append_left _ w (hw ▸ h)

/-- Trimming preserves tag-freeness. -/
theorem tagFree_trimChars (l : List Char) (h : tagFree l = true) :
    tagFree (trimChars l) = true :=
  tagFree_dropEndWhile _ _ (tagFree_dropWhile _ l h)

theorem dropWhile_dropWhile (p : Char → Bool) : ∀ l : List Char,
    (l.dropWhile p).dropWhile p = l.dropWhile p := by
  intro l
  induction l with
  | nil => rfl
  | cons c rest ih =>
    by_cases hp : p c
    · simp [List.dropWhile, hp, ih]
    · simp [List.dropWhile, hp]

/-- `dropEndWhile` walks past a head whose tail does not collapse. -/
theorem dropEndWhile_cons_of_ne (p : Char → Bool) (c : Char) (rest : List Char)
    (x : Char) (xs : List Char) (h : dropEndWhile p rest = x :: xs) :
    dropEndWhile p (c :: rest) = c :: x :: xs := by
  unfold dropEndWhile
  rw [h]

theorem dropEndWhile_idem (p : Char → Bool) : ∀ l : List Char,
    dropEndWhile p (dropEndWhile p l) = dropEndWhile p l := by
  intro l
  induction l with
  | nil => rfl
  | cons c rest ih =>
    cases hr : dropEndWhile p rest with
    | nil =>
      by_cases hp : p c
      · simp [dropEndWhile, hr, hp]
      · simp [dropEndWhile, hr, hp]
    | cons x xs =>
      have h1 : dropEndWhile p (c :: rest) = c :: (x :: xs) :=
        dropEndWhile_cons_of_ne p c rest x xs hr
      have h2 : dropEndWhile p (x :: xs) = x :: xs := hr ▸ ih
      rw [h1]
      exact dropEndWhile_cons_of_ne p c (x :: xs) x xs h2

/-- `dropEndWhile` keeps the head of the list when its result is non-empty. -/
theorem dropEndWhile_head (p : Char → Bool) (c : Char) (rest : List Char) :
    dropEndWhile p (c :: rest) = [] ∨
    ∃ t, dropEndWhile p (c :: rest) = c :: t := by
  cases hr : dropEndWhile p rest with
  | nil =>
    by_cases hp : p c
    · exact Or.inl (by simp [dropEndWhile, hr, hp])
    · exact Or.inr ⟨[], by simp [dropEndWhile, hr, hp]⟩
  | cons x xs => exact Or.inr ⟨x :: xs, by simp [dropEndWhile, hr]⟩

theorem dropWhile_head_false (p : Char → Bool) : ∀ (l : List Char) (c : Char)
    (rest : List Char), l.dropWhile p = c :: rest → p c = false := by
  intro l
  induction l with
  | nil => intro c rest h; simp [List.dropWhile] at h
  | cons x xs ih =>
    intro c rest h
    by_cases hp : p x
    · exact ih c rest (by simpa [List.dropWhile, hp] using h)
    · rw [List.dropWhile_cons_of_neg (by simpa using hp)] at h
      cases h
      simpa using hp

/-- Trimming is idempotent. -/
theorem trimChars_idem (l : List Char) : trimChars (trimChars l) = trimChars l := by
  unfold trimChars
  have key : (dropEndWhile isPySpace (l.dropWhile isPySpace)).dropWhile isPySpace =
      dropEndWhile isPySpace (l.dropWhile isPySpace) := by
    cases hA : l.dropWhile isPySpace with
    | nil => simp [dropEndWhile]
    | cons c rest =>
      have hc : isPySpace c = false := dropWhile_head_false isPySpace l c rest hA
      rcases dropEndWhile_head isPySpace c rest with h | ⟨t, h⟩
      · simp [h]
      · rw [h, List.dropWhile_cons_of_neg (by simpa using hc)]
  rw [key, dropEndWhile_idem]

/-- The cue loop is the even-position/non-empty filter over the enumerated
cue texts, mapped to their cleaned forms. -/
theorem collectLines_eq_filter (texts : List String) : ∀ i : Nat,
    collectLines i texts =
      ((texts.enumFrom i).filter fun p => decide (p.1 % 2 = 0 ∧ cleanCaption p.2 ≠ "")).map
        fun p => cleanCaption p.2 := by
  induction texts with
  | nil => intro i; simp [collectLines, List.enumFrom]
  | cons t rest ih =>
    intro i
    by_cases h : cleanCaption t ≠ "" ∧ i % 2 = 0
    · simp [collectLines, List.enumFrom, h, h.1, h.2, ih]
    · have h' : ¬(i % 2 = 0 ∧ cleanCaption t ≠ "") := fun hc => h ⟨hc.2, hc.1⟩
      simp [collectLines, List.enumFrom, h, h', ih]

/-- Every kept line is the cleaned text of some cue. -/
theorem collectLines_mem (texts : List String) : ∀ (i : Nat) (line : String),
    line ∈ collectLines i texts → ∃ t, line = cleanCaption t := by
  induction texts with
  | nil => intro i line h; simp [collectLines] at h
  | cons t rest ih =>
    intro i line h
    by_cases hc : cleanCaption t ≠ "" ∧ i % 2 = 0
    · have h2 : collectLines i (t :: rest) = cleanCaption t :: collectLines (i + 1) rest := by
        simp [collectLines, hc.1, hc.2]
      rw [h2] at h
      rcases List.mem_cons.mp h with h | h
      · exact ⟨t, h⟩
      · exact ih _ _ h
    · have h2 : collectLines i (t :: rest) = collectLines (i + 1) rest := by
        simp [collectLines, hc]
      rw [h2] at h
      exact ih _ _ h

/-- The kept lines form an in-order sublist of the cleaned cue texts. -/
theorem collectLines_sublist (texts : List String) : ∀ i : Nat,
    List.Sublist (collectLines i texts) (texts.map cleanCaption) := by
  induction texts with
  | nil => intro i; simp [collectLines]
  | cons t rest ih =>
    intro i
    by_cases h : cleanCaption t ≠ "" ∧ i % 2 = 0
    · simpa [collectLines, h] using List.Sublist.cons₂ (cleanCaption t) (ih (i + 1))
    · simpa [collectLines, h] using List.Sublist.cons (cleanCaption t) (ih (i + 1))

/-! ## Claim theorems -/

/-- Claim C1: the availability resolver returns `UseUserProvided` when the
target language is a key of the user-provided mapping, else
`UseAutoGenerated` when it is a key of the auto-generated mapping, else
`Unavailable`; in particular user-provided wins when both are present. -/
theorem c1_resolver_policy (subs autos : List String) (lang : String) :
    (lang ∈ subs → resolve_availability subs autos lang = .UseUserProvided) ∧
    (lang ∉ subs → lang ∈ autos → resolve_availability subs autos lang = .UseAutoGenerated) ∧
    (lang ∉ subs → lang ∉ autos → resolve_availability subs autos lang = .Unavailable) ∧
    (lang ∈ subs → lang ∈ autos → resolve_availability subs autos lang = .UseUserProvided) := by
  refine ⟨fun h => ?_, fun h h' => ?_, fun h h' => ?_, fun h _ => ?_⟩ <;>
    simp [resolve_availability, h, *]

/-- Concrete instantiation of C1 on the spec's scenarios, with the
language present in both maps, only the auto map, and neither. -/
theorem c1_resolver_policy_witness :
    resolve_availability ["en"] ["en"] "en" = .UseUserProvided ∧
    resolve_availability ["de"] ["en"] "en" = .UseAutoGenerated ∧
    resolve_availability ["de"] ["fr"] "en" = .Unavailable :=
  ⟨(c1_resolver_policy ["en"] ["en"] "en").2.2.2 (by simp) (by simp),
   (c1_resolver_policy ["de"] ["en"] "en").2.1 (by simp) (by simp),
   (c1_resolver_policy ["de"] ["fr"] "en").2.2.1 (by simp) (by simp)⟩

/-- Claim C2: the normalizer keeps exactly the cues at even zero-based
positions whose cleaned text is non-empty and joins them with newlines in
order; on `["Hello", "Hello", "World", "World"]` it yields
`"Hello\nWorld"`. -/
theorem c2_normalizer_even_filter (texts : List String) :
    convert_subtitles_to_text (some texts) =
      String.intercalate "\n"
        (((texts.enum.filter fun p => decide (p.1 % 2 = 0 ∧ cleanCaption p.2 ≠ "")).map
          fun p => cleanCaption p.2)) ∧
    convert_subtitles_to_text (some ["Hello", "Hello", "World", "World"]) = "Hello\nWorld" := by
  refine ⟨?_, by decide⟩
  simp [convert_subtitles_to_text, List.enum, collectLines_eq_filter]

/-- Claim C3: when the caption track downloads and parses but normalizes to
empty text, `fetch_transcript` returns the pair with empty transcript, and
the pipeline (`process_url`) surfaces a non-success (`none`, distinct from
any `some title` success) and writes no transcript file. -/
theorem c3_empty_transcript_not_success (url : String) (env : FetchEnv)
    (language : String) (info : VideoInfo)
    (hv : is_valid_youtube_url url = true)
    (hm : env.metadata = some info)
    (ha : resolve_availability info.subtitles info.automaticCaptions language ≠ .Unavailable)
    (hd : env.downloadOk = true)
    (hf : env.subtitleFileExists = true)
    (he : convert_subtitles_to_text env.parsedCaptions = "") :
    (process_url url env language).1 = none ∧
    (∀ t, FetchEvent.saveTranscript t ∉ (process_url url env language).2) := by
  have hft : fetch_transcript env language =
      (some ("", derive_video_title info.title), [.metadataFetch, .subtitleDownload]) := by
    cases hr : resolve_availability info.subtitles info.automaticCaptions language with
    | Unavailable => exact absurd hr ha
    | UseUserProvided => simp [fetch_transcript, hm, hr, hd, hf, he]
    | UseAutoGenerated => simp [fetch_transcript, hm, hr, hd, hf, he]
  refine ⟨?_, fun t => ?_⟩ <;> simp [process_url, hv, hft]

/-- Concrete instantiation of C3: captions parse to a single tag-only cue,
normalization is empty, and the pipeline returns `none` with no save. -/
theorem c3_empty_transcript_not_success_witness :
    (process_url "https://youtu.be/dQw4w9WgXcQ"
        ⟨some ⟨"T", ["en"], []⟩, true, true, some ["<i>"]⟩ "en").1 = none :=
  (c3_empty_transcript_not_success "https://youtu.be/dQw4w9WgXcQ"
      ⟨some ⟨"T", ["en"], []⟩, true, true, some ["<i>"]⟩ "en" ⟨"T", ["en"], []⟩
      (by decide) rfl (by decide) rfl rfl (by decide)).1

/-- Claim C5: an input failing the URL pattern is rejected with no result
and an empty event trace — in particular no metadata fetch and no download
is attempted. -/
theorem c5_invalid_url_no_network (url : String) (env : FetchEnv) (language : String)
    (h : is_valid_youtube_url url = false) :
    process_url url env language = (none, []) := by
  simp [process_url, h]

/-- Concrete instantiation of C5 on the spec's example `"not-a-url"`. -/
theorem c5_invalid_url_no_network_witness :
    process_url "not-a-url" ⟨none, false, false, none⟩ "en" = (none, []) :=
  c5_invalid_url_no_network "not-a-url" ⟨none, false, false, none⟩ "en" (by decide)

/-- Claim C7: when the download step completes but the expected subtitle
file is missing, the pipeline returns a failure (`none`) after exactly the
metadata-fetch and download events, and writes no transcript file. -/
theorem c7_missing_file_is_failure (url : String) (env : FetchEnv)
    (language : String) (info : VideoInfo)
    (hv : is_valid_youtube_url url = true)
    (hm : env.metadata = some info)
    (ha : resolve_availability info.subtitles info.automaticCaptions language ≠ .Unavailable)
    (hd : env.downloadOk = true)
    (hf : env.subtitleFileExists = false) :
    fetch_transcript env language = (none, [.metadataFetch, .subtitleDownload]) ∧
    process_url url env language = (none, [.metadataFetch, .subtitleDownload]) ∧
    (∀ t, FetchEvent.saveTranscript t ∉ (process_url url env language).2) := by
  have hft : fetch_transcript env language = (none, [.metadataFetch, .subtitleDownload]) := by
    cases hr : resolve_availability info.subtitles info.automaticCaptions language with
    | Unavailable => exact absurd hr ha
    | UseUserProvided => simp [fetch_transcript, hm, hr, hd, hf]
    | UseAutoGenerated => simp [fetch_transcript, hm, hr, hd, hf]
  refine ⟨hft, ?_, fun t => ?_⟩ <;> simp [process_url, hv, hft]

/-- Concrete instantiation of C7: a successful download that produced no
file yields `(none, [metadataFetch, subtitleDownload])`. -/
theorem c7_missing_file_is_failure_witness :
    process_url "https://youtu.be/dQw4w9WgXcQ"
        ⟨some ⟨"T", ["en"], []⟩, true, false, none⟩ "en" =
      (none, [.metadataFetch, .subtitleDownload]) :=
  (c7_missing_file_is_failure "https://youtu.be/dQw4w9WgXcQ"
      ⟨some ⟨"T", ["en"], []⟩, true, false, none⟩ "en" ⟨"T", ["en"], []⟩
      (by decide) rfl (by decide) rfl rfl).2.1

/-- Claim C8: the normalizer is total and never signals failure: a parse
failure yields `""`, an empty caption track yields `""`, and a track whose
cues are entirely filtered out yields `""`. -/
theorem c8_normalizer_never_errors (texts : List String) :
    convert_subtitles_to_text none = "" ∧
    convert_subtitles_to_text (some []) = "" ∧
    (collectLines 0 texts = [] → convert_subtitles_to_text (some texts) = "") := by
  refine ⟨rfl, rfl, fun h => ?_⟩
  simp only [convert_subtitles_to_text, h]
  rfl

/-- Concrete instantiation of C8: a track holding only a markup-only cue
and an odd-position cue is entirely filtered out and normalizes to `""`. -/
theorem c8_normalizer_never_errors_witness :
    convert_subtitles_to_text (some ["<i>", "x"]) = "" :=
  (c8_normalizer_never_errors ["<i>", "x"]).2.2 (by decide)

/-- Claim C10 counterexample: Python's `$` also matches just before a
newline that ends the string, so the validator accepts
`"https://youtu.be/abcdefghijk\n"`, a string outside the set the claim
describes (its final `"\n"` is neither part of an 11-character identifier
nor a suffix beginning with `'&'`). -/
theorem c10_counterexample :
    is_valid_youtube_url "https://youtu.be/abcdefghijk\n" = true ∧
    ¬ ClaimUrlShape "https://youtu.be/abcdefghijk\n".data := by
  refine ⟨by decide, ?_⟩
  rintro ⟨a, b, hst, ident, suf, ha, hb, hhst, heq, hlen, hword, hsuf⟩
  simp only [schemeOpts, wwwOpts, hostOpts, List.mem_cons, List.mem_singleton,
    List.not_mem_nil, or_false, false_or] at ha hb hhst
  rcases ha with rfl | rfl | rfl <;> rcases hb with rfl | rfl <;>
    rcases hhst with rfl | rfl <;> simp at heq
  have h12 : ident ++ suf =
      ['a', 'b', 'c', 'd', 'e', 'f', 'g', 'h', 'i', 'j', 'k'] ++ ['\n'] := heq.symm
  obtain ⟨hid, hsf⟩ := List.append_inj h12 (hlen.trans (by decide))
  subst hsf
  rcases hsuf with h0 | ⟨t, ht⟩
  · simp at h0
  · simp at ht

/-- Claim C10 (amended): the validator accepts exactly the strings of the
claimed shape — optional http/https scheme, optional `www.`, one of the
two host forms, an 11-character word-or-dash identifier, an optional
suffix that begins with `'&'` and continues with non-whitespace characters
only — optionally followed by a single trailing newline. -/
theorem c10_amended_url_pattern (s : String) :
    is_valid_youtube_url s = true ↔ AmendedUrlShape s.data :=
  urlCore_dropFinalNl_iff s.data

/-- Claim C4 counterexample: tag removal is idempotent (see the amended
theorem), but the joined output can still contain a substring matching the
tag pattern `<[^>]+>` when one kept line ends in `'<'` and a later kept
line contains `'>'`: on the cue texts `["a<", "x", ">b"]` the output is
`"a<\n>b"`, whose substring `"<\n>"` matches the pattern — witnessed by
the stripper not being the identity on the output. -/
theorem c4_counterexample :
    stripTags (convert_subtitles_to_text (some ["a<", "x", ">b"])).data ≠
      (convert_subtitles_to_text (some ["a<", "x", ">b"])).data := by decide

/-- Claim C4 (amended): markup stripping (tag removal followed by
whitespace trimming) is idempotent, and each individual line kept by the
normalizer contains no markup tag (stripping it is the identity); the
no-tag guarantee holds per kept line, not for the newline-joined output. -/
theorem c4_amended_strip_idempotent :
    (∀ s : String, cleanCaption (cleanCaption s) = cleanCaption s) ∧
    (∀ texts : List String, ∀ line ∈ collectLines 0 texts,
      stripTags line.data = line.data) := by
  constructor
  · intro s
    have h2 : tagFree (trimChars (stripTags s.data)) = true :=
      tagFree_trimChars _ (tagFree_stripTags s.data)
    show (⟨trimChars (stripTags (cleanCaption s).data)⟩ : String) = cleanCaption s
    have hdata : (cleanCaption s).data = trimChars (stripTags s.data) := rfl
    rw [hdata, stripTags_of_tagFree _ h2, trimChars_idem]
    rfl
  · intro texts line hline
    obtain ⟨t, rfl⟩ := collectLines_mem texts 0 line hline
    show stripTags (trimChars (stripTags t.data)) = trimChars (stripTags t.data)
    exact stripTags_of_tagFree _ (tagFree_trimChars _ (tagFree_stripTags _))

/-- Concrete instantiation of C4 (amended): idempotence on a markup-laden
cue text, and tag-freeness of a concrete kept line. -/
theorem c4_amended_strip_idempotent_witness :
    cleanCaption (cleanCaption " <i>Hi</i> there ") = cleanCaption " <i>Hi</i> there " ∧
    stripTags (cleanCaption "Hello").data = (cleanCaption "Hello").data :=
  ⟨c4_amended_strip_idempotent.1 " <i>Hi</i> there ",
   c4_amended_strip_idempotent.2 ["Hello"] (cleanCaption "Hello") (by decide)⟩

/-- Claim C9 counterexample: a cue whose text contains an embedded newline
(`"x\ny"`, legal in VTT cue payloads) survives the filter unchanged, so the
newline-split lines of the output (`["x", "y"]`) are not a sublist of the
cleaned cue texts (`["x\ny"]`). -/
theorem c9_counterexample :
    ¬ List.Sublist (linesOf (convert_subtitles_to_text (some ["x\ny"])))
      (["x\ny"].map cleanCaption) := by decide

/-- Claim C9 (amended): the surviving cleaned cue texts — whose
newline-join is the normalizer's output — form an in-order sublist of the
cleaned cue texts: cues may be dropped but are never reordered.  (The
original claim's "lines of the output" phrasing fails only when a cue text
itself contains a newline.) -/
theorem c9_amended_no_reorder (texts : List String) :
    List.Sublist (collectLines 0 texts) (texts.map cleanCaption) ∧
    convert_subtitles_to_text (some texts) =
      String.intercalate "\n" (collectLines 0 texts) :=
  ⟨collectLines_sublist texts 0, rfl⟩

/-- Claim C6 counterexample: the code replaces each space separately, so
`"My  Video"` (two spaces) derives to `"My--Video"`, not the collapsed
`"My-Video"` the claim describes. -/
theorem c6_counterexample :
    derive_video_title "My  Video" = "My--Video" ∧
    claimCollapseTitle "My  Video" = "My-Video" ∧
    derive_video_title "My  Video" ≠ claimCollapseTitle "My  Video" := by decide

/-- Claim C6 (amended): every space is replaced by its own `'-'` (runs of
whitespace are not collapsed), every character other than ASCII letters,
digits and `'-'` is removed, and the result is capped at 50 characters;
`"My Video!"` derives to `"My-Video"` and `"My  Video"` to `"My--Video"`. -/
theorem c6_amended_title_sanitization (t : String) :
    (derive_video_title t).length ≤ 50 ∧
    ((derive_video_title t).data.all fun c => c.isAlphanum || c = '-') = true ∧
    derive_video_title "My Video!" = "My-Video" ∧
    derive_video_title "My  Video" = "My--Video" := by
  refine ⟨?_, ?_, by decide, by decide⟩
  · show (deriveTitleChars t.data).length ≤ 50
    simp [deriveTitleChars]
  · show (deriveTitleChars t.data).all _ = true
    refine List.all_eq_true.mpr fun c hc => ?_
    simp only [deriveTitleChars] at hc
    have h2 : c ∈ List.filter (fun x => x.isAlphanum || decide (x = '-'))
        ((trimChars t.data).map fun x => if x = ' ' then '-' else x) :=
      List.take_subset _ _ hc
    simpa using (List.mem_filter.mp h2).2
